import Mathlib

/-!
Verification of the zombie-simulator grid model and pursuit algorithm.

The development is a shallow embedding of the JavaScript source:

* `ZS.Vector`, `ZS.Vector.distance` — the `Vector` class of `vector.js`
  (squared-Euclidean `distance`), restricted to the integer coordinates
  that the world model and the movement policy actually produce.
* `JSV` — a second, extended model of the same `Vector` class in which the
  coordinates range over the IEEE special values (`Infinity`, `-Infinity`,
  `NaN`) as well as the integers, used to reason about the distinguished
  `Vector.Infinite` constant.
* `ZS.Zombie.move`, `ZS.Character.move` — `character.js`.
* `ZS.World` with `withCharacterAt`, `viewpoint`, `tick` — `world.js`
  (the class shipped in the renderer/world source file).

JavaScript exceptions are modelled with `Except`; `undefined` results are
modelled with `Option`.  Identity (`!==`) on character objects is modelled
by giving each character a numeric identity: two records with different
`ident` fields stand for two distinct JavaScript objects.
-/

namespace ZS

/-- The `Vector` class of `vector.js` at integer coordinates.  The world and
the movement policy only ever construct vectors with (small) integer
components, on which JavaScript number arithmetic is exact. -/
structure Vector where
  dx : ℤ
  dy : ℤ
deriving DecidableEq, Repr

/-- `get distance() { return Math.pow(this.dx, 2) + Math.pow(this.dy, 2); }` -/
def Vector.distance (v : Vector) : ℤ := v.dx ^ 2 + v.dy ^ 2

/-- `add(other) { return new Vector(this.dx + other.dx, this.dy + other.dy); }` -/
def Vector.add (v w : Vector) : Vector := ⟨v.dx + w.dx, v.dy + w.dy⟩

/-- `sub(other) { return new Vector(this.dx - other.dx, this.dy - other.dy); }` -/
def Vector.sub (v w : Vector) : Vector := ⟨v.dx - w.dx, v.dy - w.dy⟩

/-- The two character classes of `character.js`. -/
inductive CharKind where
  | human
  | zombie
deriving DecidableEq, Repr

/-- A character object.  `ident` models JavaScript object identity: the
source compares characters with `!==`, so two `new Human()` objects are
distinct; here, records with distinct `ident` fields model distinct
objects. -/
structure Character where
  ident : ℕ
  kind : CharKind
deriving DecidableEq, Repr

/-- `Human.living = true`, `Zombie.living = false`. -/
def Character.living (c : Character) : Bool := c.kind == CharKind.human

/-- A viewpoint entry `{dx, dy, character}` as produced by `World.viewpoint`
and consumed by `move`. -/
structure EnvRecord where
  dx : ℤ
  dy : ℤ
  character : Character
deriving DecidableEq, Repr

namespace Zombie

/-- `Zombie._moves`: the nine single-step vectors, `dx` outer loop and `dy`
inner loop, each ranging over `[-1, 0, 1]`. -/
def moves : List Vector :=
  ([-1, 0, 1] : List ℤ).flatMap fun dx => ([-1, 0, 1] : List ℤ).map fun dy => ⟨dx, dy⟩

/-- The re-mapping at the top of `Zombie.move`: each environment record is
turned into an `{offset, character}` pair. -/
def envPairs (environment : List EnvRecord) : List (Vector × Character) :=
  environment.map fun r => (⟨r.dx, r.dy⟩, r.character)

/-- `const targets = environment.filter(t => t.character.living);` -/
def targets (environment : List EnvRecord) : List (Vector × Character) :=
  (envPairs environment).filter fun t => t.2.living

/-- The `bestDistance`/`bestTarget` scan of `Zombie.move`: starting from
`bestDistance = Infinity, bestTarget = null`, each target replaces the
current best exactly when its offset's distance is strictly smaller.
`bestDistance` always equals the distance of the current `bestTarget`, so
the pair of mutable variables is modelled by an `Option` best target. -/
def selectStep (acc : Option (Vector × Character)) (t : Vector × Character) :
    Option (Vector × Character) :=
  match acc with
  | none => some t
  | some b => if t.1.distance < b.1.distance then some t else some b

/-- The whole `targets.forEach` scan. -/
def selectBest (ts : List (Vector × Character)) : Option (Vector × Character) :=
  ts.foldl selectStep none

/-- The `freeMoves` filter of `Zombie.move`: a move of distance 0 is always
kept; any other move is kept iff no environment entry's offset equals it. -/
def freeMoves (env2 : List (Vector × Character)) : List Vector :=
  moves.filter fun m =>
    if m.distance == 0 then true else !(env2.any fun t => t.1 == m)

/-- The strict comparison implemented by `compareMoves`: first by distance
from the best target's offset to the move, then by the move's own
distance. -/
def moveLt (target m b : Vector) : Prop :=
  (target.sub m).distance < (target.sub b).distance ∨
    ((target.sub m).distance = (target.sub b).distance ∧ m.distance < b.distance)

instance (target m b : Vector) : Decidable (moveLt target m b) := by
  unfold moveLt; infer_instance

/-- `freeMoves.sort(compareMoves)[0]`.  `Array.prototype.sort` is stable, so
element 0 of the sorted array is the earliest element that is minimal under
the comparator; that element is computed here by a left fold that replaces
the current best only on a strict comparison win. -/
def chooseStep (target : Vector) (acc : Option Vector) (m : Vector) : Option Vector :=
  match acc with
  | none => some m
  | some b => if moveLt target m b then some m else some b

/-- The selection itself: the earliest comparator-minimal free move. -/
def chooseMove (target : Vector) (ms : List Vector) : Option Vector :=
  ms.foldl (chooseStep target) none

/-- `Zombie.move(environment)`.  Returns `none` where the JavaScript code
would return `undefined` (never, as proved below).  The source checks
`bestDistance <= 2` before `bestTarget === null`; since `bestDistance` is
`Infinity` exactly when `bestTarget` is `null`, matching on the selected
best target first is equivalent. -/
def move (environment : List EnvRecord) : Option Vector :=
  match selectBest (targets environment) with
  | none => some ⟨0, 0⟩
  | some b =>
    if b.1.distance ≤ 2 then some ⟨0, 0⟩
    else chooseMove b.1 (freeMoves (envPairs environment))

end Zombie

/-- `Human.move` always returns the zero offset. -/
def Human.move (_environment : List EnvRecord) : Vector := ⟨0, 0⟩

/-- Polymorphic dispatch of `character.move(viewpoint)`. -/
def Character.move (c : Character) (environment : List EnvRecord) : Option Vector :=
  match c.kind with
  | .human => some (Human.move environment)
  | .zombie => Zombie.move environment

/-- A `{x, y, character}` placement record of the `World` class. -/
structure CharRecord where
  x : ℤ
  y : ℤ
  character : Character
deriving DecidableEq, Repr

/-- The `World` class: `constructor(width, height, characters)` stores its
arguments unchecked (an omitted list defaults to `[]`). -/
structure World where
  width : ℤ
  height : ℤ
  characters : List CharRecord
deriving DecidableEq, Repr

/-- The exceptions the world can throw. -/
inductive WorldError where
  | occupiedCell (x y : ℤ)
  | undefinedMove
deriving DecidableEq, Repr

/-- `World.withCharacterAt(character, x, y)`: drop the character's previous
record (comparison by object identity), throw if any remaining record
occupies `(x, y)`, otherwise push the new record.  The null-character guard
of the source is unrepresentable here because `Character` has no null
inhabitant. -/
def World.withCharacterAt (w : World) (c : Character) (x y : ℤ) : Except WorldError World :=
  let newCharacters := w.characters.filter fun cr => cr.character != c
  if newCharacters.any fun cr => cr.x == x && cr.y == y then
    .error (.occupiedCell x y)
  else
    .ok ⟨w.width, w.height, newCharacters ++ [⟨x, y, c⟩]⟩

/-- `World.viewpoint(x, y)`: every record, rebased to the query origin. -/
def World.viewpoint (w : World) (x y : ℤ) : List EnvRecord :=
  w.characters.map fun cr => ⟨cr.x - x, cr.y - y, cr.character⟩

/-- One step of the `tick` fold: compute the record's viewpoint from the
current world, ask the character for a move, and place it.  An `undefined`
move (impossible, see below) would crash the JavaScript code reading
`move.dx`; that is the `undefinedMove` error. -/
def World.tickStep (world : World) (cr : CharRecord) : Except WorldError World :=
  match Character.move cr.character (world.viewpoint cr.x cr.y) with
  | none => .error .undefinedMove
  | some mv => world.withCharacterAt cr.character (cr.x + mv.dx) (cr.y + mv.dy)

/-- The function folded by `tick` (the anonymous callback of `reduce`,
lifted to `Except` so that a thrown exception aborts the rest of the
fold). -/
def World.tickF (acc : Except WorldError World) (cr : CharRecord) : Except WorldError World :=
  acc.bind fun world => World.tickStep world cr

/-- `World.tick()`: `this.characters.reduce(..., this)`. -/
def World.tick (w : World) : Except WorldError World :=
  w.characters.foldl World.tickF (.ok w)

/-- Lookup by cell, the `find` shared by `at`/`_at` (bounds aside): the
first record at `(x, y)`, if any. -/
def World.charAt (w : World) (x y : ℤ) : Option Character :=
  (w.characters.find? fun cr => cr.x == x && cr.y == y).map (·.character)

/-- Invariant 2 of the spec's data model: no two placements share a cell. -/
def World.noSharedCell (w : World) : Prop :=
  w.characters.Pairwise fun a b => ¬(a.x = b.x ∧ a.y = b.y)

/-- Invariant 3 of the spec's data model: each occupant identity appears at
most once. -/
def World.uniqueCharacters (w : World) : Prop :=
  w.characters.Pairwise fun a b => a.character ≠ b.character

/-- Both occupancy invariants together. -/
def World.wf (w : World) : Prop := w.noSharedCell ∧ w.uniqueCharacters

/-- Every placement inside `[0, width) × [0, height)`. -/
def World.inBounds (w : World) : Prop :=
  ∀ cr ∈ w.characters, 0 ≤ cr.x ∧ cr.x < w.width ∧ 0 ≤ cr.y ∧ cr.y < w.height

instance (w : World) : Decidable w.noSharedCell := by
  unfold World.noSharedCell; exact List.instDecidablePairwise _
instance (w : World) : Decidable w.uniqueCharacters := by
  unfold World.uniqueCharacters; exact List.instDecidablePairwise _
instance (w : World) : Decidable w.wf := by unfold World.wf; infer_instance
instance (w : World) : Decidable w.inBounds := by
  unfold World.inBounds; infer_instance

end ZS

namespace ZS

/-- `World.tick` as the specification describes it: a left fold over the
starting world's placement sequence in which each step (a) computes the
occupant's viewpoint from the fold's current world value, (b) invokes the
occupant's movement policy, and (c) applies
`withCharacterAt(occupant, x + dx, y + dy)` to advance the fold. -/
def World.tickSpec (w : World) : Except WorldError World :=
  w.characters.foldl
    (fun acc cr =>
      acc.bind fun world =>
        let vp := world.viewpoint cr.x cr.y
        match Character.move cr.character vp with
        | none => .error .undefinedMove
        | some mv => world.withCharacterAt cr.character (cr.x + mv.dx) (cr.y + mv.dy))
    (.ok w)

/-- `Math.sign` on integers. -/
def signZ (n : ℤ) : ℤ := if n < 0 then -1 else if n = 0 then 0 else 1

/-- The step-candidate pursuit move as the claim (and spec §4.3 steps 5-7)
words it: the ordered candidate list built from the unit step toward the
target, filtered against every viewpoint offset, first survivor or zero. -/
def candidateMove (target : Vector) (env2 : List (Vector × Character)) : Vector :=
  let sx := signZ target.dx
  let sy := signZ target.dy
  let cands : List Vector :=
    if sx = 0 then [⟨0, sy⟩, ⟨-1, sy⟩, ⟨1, sy⟩]
    else if sy = 0 then [⟨sx, 0⟩, ⟨sx, -1⟩, ⟨sx, 1⟩]
    else [⟨sx, sy⟩, ⟨0, sy⟩, ⟨sx, 0⟩]
  match cands.filter (fun m => !(env2.any fun t => t.1 == m)) with
  | [] => ⟨0, 0⟩
  | m :: _ => m

/-- The zombie movement policy as claim C5 words it: same target selection
and biting-range check as the code, but with the pursuit step computed by
the ordered candidate list rather than by ranking all nine moves. -/
def claimedZombieMove (environment : List EnvRecord) : Option Vector :=
  match Zombie.selectBest (Zombie.targets environment) with
  | none => some ⟨0, 0⟩
  | some b =>
    if b.1.distance ≤ 2 then some ⟨0, 0⟩
    else some (candidateMove b.1 (Zombie.envPairs environment))

end ZS

/-!
The extended model of the `Vector` class: coordinates are JavaScript
numbers, of which this development needs the integers and the IEEE special
values `Infinity`, `-Infinity` and `NaN`.  On these, JavaScript `+`, unary
`-`, `Math.pow(-, 2)` and `<` behave exactly as modelled below (integer
arithmetic is exact at the magnitudes involved).
-/

namespace JSV

/-- A JavaScript number as used by `vector.js`: an integer or an IEEE
special value. -/
inductive JNum where
  | int (n : ℤ)
  | posInf
  | negInf
  | nan
deriving DecidableEq, Repr

/-- IEEE addition restricted to `JNum`. -/
def JNum.add : JNum → JNum → JNum
  | .nan, _ => .nan
  | .int _, .nan => .nan
  | .posInf, .nan => .nan
  | .negInf, .nan => .nan
  | .int m, .int n => .int (m + n)
  | .int _, .posInf => .posInf
  | .int _, .negInf => .negInf
  | .posInf, .int _ => .posInf
  | .posInf, .posInf => .posInf
  | .posInf, .negInf => .nan
  | .negInf, .int _ => .negInf
  | .negInf, .posInf => .nan
  | .negInf, .negInf => .negInf

/-- IEEE negation. -/
def JNum.neg : JNum → JNum
  | .int n => .int (-n)
  | .posInf => .negInf
  | .negInf => .posInf
  | .nan => .nan

/-- IEEE subtraction: `a - b = a + (-b)`. -/
def JNum.sub (a b : JNum) : JNum := a.add b.neg

/-- `Math.pow(a, 2)`. -/
def JNum.pow2 : JNum → JNum
  | .int n => .int (n ^ 2)
  | .posInf => .posInf
  | .negInf => .posInf
  | .nan => .nan

/-- The IEEE `<` comparison (`NaN` compares false against everything). -/
def JNum.ltb : JNum → JNum → Bool
  | .nan, _ => false
  | .int _, .nan => false
  | .posInf, .nan => false
  | .negInf, .nan => false
  | .int m, .int n => m < n
  | .int _, .posInf => true
  | .int _, .negInf => false
  | .posInf, _ => false
  | .negInf, .negInf => false
  | .negInf, .int _ => true
  | .negInf, .posInf => true

/-- The `Vector` class over JavaScript numbers. -/
structure Vector where
  dx : JNum
  dy : JNum
deriving DecidableEq, Repr

/-- `static get Infinite() { return new Vector(Infinity, Infinity); }` -/
def Vector.Infinite : Vector := ⟨.posInf, .posInf⟩

/-- `get distance() { return Math.pow(this.dx, 2) + Math.pow(this.dy, 2); }` -/
def Vector.distance (v : Vector) : JNum := (v.dx.pow2).add (v.dy.pow2)

/-- `add(other)`. -/
def Vector.add (v w : Vector) : Vector := ⟨v.dx.add w.dx, v.dy.add w.dy⟩

/-- `sub(other)`. -/
def Vector.sub (v w : Vector) : Vector := ⟨v.dx.sub w.dx, v.dy.sub w.dy⟩

end JSV

namespace ZS

/-- The lexicographic non-strict counterpart of `Zombie.moveLt`: `m` ranks no
worse than `b` under `compareMoves`. -/
def Zombie.moveLe (target m b : Vector) : Prop :=
  (target.sub m).distance < (target.sub b).distance ∨
    ((target.sub m).distance = (target.sub b).distance ∧ m.distance ≤ b.distance)

/-! Concrete characters and worlds used as test inputs.  `hm-` characters
are humans, `zb-` characters are zombies; the numeric identities keep the
objects pairwise distinct. -/

def hmA : Character := ⟨0, .human⟩
def hmB : Character := ⟨1, .human⟩
def hmC : Character := ⟨2, .human⟩
def zbA : Character := ⟨3, .zombie⟩
def zbB : Character := ⟨4, .zombie⟩

/-- A directly constructed world with two occupants stacked on cell (0, 0):
the constructor stores the list unchecked. -/
def cexW1 : World := ⟨2, 2, [⟨0, 0, hmA⟩, ⟨0, 0, hmB⟩]⟩

/-- A small valid world used to exercise `withCharacterAt`. -/
def w1s : World := ⟨2, 2, [⟨0, 0, hmA⟩]⟩

/-- A world with a single occupant at (1, 1), the query cell of the
viewpoint counterexample. -/
def w4 : World := ⟨2, 2, [⟨1, 1, hmA⟩]⟩

/-- A viewpoint with the human at relative (3, 2) and a blocking zombie on
the diagonal candidate (1, 1); the candidate-list rule and the sorting rule
disagree here. -/
def env5 : List EnvRecord := [⟨0, 0, zbA⟩, ⟨3, 2, hmA⟩, ⟨1, 1, zbB⟩]

/-- A 1×5 world, entirely in bounds, whose tick pushes the first zombie off
the left edge: its direct step up is blocked by the second zombie, and the
best remaining move under `compareMoves` is the diagonal (-1, 1). -/
def w8 : World := ⟨1, 5, [⟨0, 0, zbA⟩, ⟨0, 1, zbB⟩, ⟨0, 3, hmA⟩]⟩

/-- The world `w8.tick` produces: the first zombie sits at x = -1. -/
def w8out : World := ⟨1, 5, [⟨-1, 1, zbA⟩, ⟨0, 2, zbB⟩, ⟨0, 3, hmA⟩]⟩

end ZS

namespace ZS

/-! ### Helper lemmas about `withCharacterAt` and the `tick` fold -/

theorem occupied_check_iff (w : World) (c : Character) (x y : ℤ) :
    ((w.characters.filter fun cr => cr.character != c).any fun cr =>
        cr.x == x && cr.y == y) = true ↔
      ∃ cr ∈ w.characters, cr.character ≠ c ∧ cr.x = x ∧ cr.y = y := by
  simp only [List.any_eq_true, List.mem_filter, bne_iff_ne, Bool.and_eq_true, beq_iff_eq]
  constructor
  · rintro ⟨cr, ⟨hm, hne⟩, hx, hy⟩
    exact ⟨cr, hm, hne, hx, hy⟩
  · rintro ⟨cr, hm, hne, hx, hy⟩
    exact ⟨cr, ⟨hm, hne⟩, hx, hy⟩

theorem withCharacterAt_error_iff (w : World) (c : Character) (x y : ℤ) :
    (∃ e, w.withCharacterAt c x y = .error e) ↔
      ∃ cr ∈ w.characters, cr.character ≠ c ∧ cr.x = x ∧ cr.y = y := by
  rw [World.withCharacterAt]
  by_cases h : ((w.characters.filter fun cr => cr.character != c).any fun cr =>
      cr.x == x && cr.y == y) = true
  · simp only [h, if_true]
    exact ⟨fun _ => (occupied_check_iff w c x y).mp h, fun _ => ⟨_, rfl⟩⟩
  · simp only [h, if_false]
    constructor
    · rintro ⟨e, he⟩
      cases he
    · intro hr
      exact absurd ((occupied_check_iff w c x y).mpr hr) h

theorem withCharacterAt_ok (w : World) (c : Character) (x y : ℤ)
    (h : ¬ ∃ cr ∈ w.characters, cr.character ≠ c ∧ cr.x = x ∧ cr.y = y) :
    w.withCharacterAt c x y =
      .ok ⟨w.width, w.height,
        (w.characters.filter fun cr => cr.character != c) ++ [⟨x, y, c⟩]⟩ := by
  rw [World.withCharacterAt]
  rw [if_neg]
  intro hc
  exact h ((occupied_check_iff w c x y).mp hc)

theorem withCharacterAt_noSharedCell {w w' : World} {c : Character} {x y : ℤ}
    (hw : w.noSharedCell) (h : w.withCharacterAt c x y = .ok w') : w'.noSharedCell := by
  rw [World.withCharacterAt] at h
  by_cases hc : ((w.characters.filter fun cr => cr.character != c).any fun cr =>
      cr.x == x && cr.y == y) = true
  · rw [if_pos hc] at h
    cases h
  · rw [if_neg hc] at h
    cases h
    unfold World.noSharedCell at hw ⊢
    rw [List.pairwise_append]
    refine ⟨hw.sublist (List.filter_sublist _), List.pairwise_singleton _ _, ?_⟩
    intro a ha b hb
    have hb' : b = (⟨x, y, c⟩ : CharRecord) := by simpa using hb
    subst hb'
    intro hcon
    apply hc
    refine List.any_eq_true.mpr ⟨a, ha, ?_⟩
    have hx : a.x = x := hcon.1
    have hy : a.y = y := hcon.2
    simp [hx, hy]

theorem tickStep_noSharedCell {world w' : World} {cr : CharRecord}
    (hw : world.noSharedCell) (h : World.tickStep world cr = .ok w') : w'.noSharedCell := by
  rw [World.tickStep] at h
  cases hm : Character.move cr.character (world.viewpoint cr.x cr.y) with
  | none => rw [hm] at h; cases h
  | some mv => rw [hm] at h; exact withCharacterAt_noSharedCell hw h

theorem foldl_tickF_error (l : List CharRecord) (e : WorldError) :
    l.foldl World.tickF (.error e) = .error e := by
  induction l with
  | nil => rfl
  | cons cr l ih =>
    rw [List.foldl_cons]
    exact ih

theorem foldl_tickF_noSharedCell :
    ∀ (l : List CharRecord) (a : World), a.noSharedCell →
      ∀ w', l.foldl World.tickF (.ok a) = .ok w' → w'.noSharedCell := by
  intro l
  induction l with
  | nil =>
    intro a ha w' h
    cases h
    exact ha
  | cons cr l ih =>
    intro a ha w' h
    rw [List.foldl_cons] at h
    cases hs : World.tickStep a cr with
    | error e =>
      rw [show World.tickF (.ok a) cr = .error e from by
        rw [World.tickF]; rw [show Except.bind (Except.ok a) (fun world => World.tickStep world cr) = World.tickStep a cr from rfl, hs]] at h
      rw [foldl_tickF_error] at h
      cases h
    | ok a1 =>
      rw [show World.tickF (.ok a) cr = .ok a1 from by
        rw [World.tickF]; rw [show Except.bind (Except.ok a) (fun world => World.tickStep world cr) = World.tickStep a cr from rfl, hs]] at h
      exact ih a1 (tickStep_noSharedCell ha hs) w' h

/-- Claim C1 (amended).  Worlds produced by `withCharacterAt` and by `tick`
from a world already satisfying the no-shared-cell invariant satisfy it
again — including every intermediate world of `tick`'s fold, here the fold
value after any number `k` of steps.  Construction, by contrast, validates
nothing; see the counterexample. -/
theorem world_noSharedCell_preserved (w : World) (hw : w.noSharedCell) :
    (∀ (c : Character) (x y : ℤ) (w' : World),
        w.withCharacterAt c x y = .ok w' → w'.noSharedCell) ∧
    (∀ (k : ℕ) (wi : World),
        (w.characters.take k).foldl World.tickF (.ok w) = .ok wi → wi.noSharedCell) ∧
    (∀ w' : World, w.tick = .ok w' → w'.noSharedCell) := by
  refine ⟨fun c x y w' h => withCharacterAt_noSharedCell hw h,
          fun k wi h => foldl_tickF_noSharedCell _ w hw wi h,
          fun w' h => foldl_tickF_noSharedCell w.characters w hw w' h⟩

/-- Claim C1, counterexample to the construction part: the `World`
constructor stores its placement list unchecked, so a directly constructed
world can hold two distinct occupants on the same cell. -/
theorem world_construction_shared_cell_cex :
    cexW1.characters = [⟨0, 0, hmA⟩, ⟨0, 0, hmB⟩] ∧ hmA ≠ hmB ∧ ¬ cexW1.noSharedCell :=
  ⟨rfl, by decide, by decide⟩

/-- Witness for C1: the preservation theorem applied to the concrete world
`w1s` and the placement of `hmB` at (1, 0). -/
theorem world_noSharedCell_preserved_witness :
    World.noSharedCell ⟨2, 2, [⟨0, 0, hmA⟩, ⟨1, 0, hmB⟩]⟩ :=
  (world_noSharedCell_preserved w1s (by decide)).1 hmB 1 0 _ rfl

end ZS

namespace ZS

/-- Claim C2.  `tick()` is exactly the left fold the specification
describes: over the starting world's placement sequence in order, each step
computing the occupant's viewpoint from the fold's current world value,
invoking the occupant's movement policy, and committing the move with
`withCharacterAt(occupant, x + dx, y + dy)` before the next step runs; the
final fold value is `tick`'s result. -/
theorem tick_is_left_fold (w : World) : w.tick = w.tickSpec := rfl

/-- Claim C4, counterexample: `viewpoint(1, 1)` of a world whose only
occupant sits exactly at (1, 1) reports that occupant, rebased to (0, 0),
instead of excluding it (the repository's own viewpoint test asserts this
inclusive behaviour). -/
theorem viewpoint_origin_cex :
    w4.characters = [⟨1, 1, hmA⟩] ∧ w4.viewpoint 1 1 = [⟨0, 0, hmA⟩] :=
  ⟨rfl, rfl⟩

/-- Claim C4 (amended).  `viewpoint(x, y)` returns one entry per placement —
including any occupant located exactly at (x, y), which appears rebased to
(0, 0) — each entry rebased to `(placement.x - x, placement.y - y,
occupant)`; every placement's rebased entry occurs exactly as often in the
viewpoint as the placement occurs in the world. -/
theorem viewpoint_rebases_every_placement (w : World) (x y : ℤ) :
    (w.viewpoint x y).length = w.characters.length ∧
    ∀ cr : CharRecord,
      (w.viewpoint x y).count (⟨cr.x - x, cr.y - y, cr.character⟩ : EnvRecord) =
        w.characters.count cr := by
  constructor
  · simp [World.viewpoint]
  · intro cr
    rw [World.viewpoint]
    exact List.count_map_of_injective w.characters
      (fun cr => (⟨cr.x - x, cr.y - y, cr.character⟩ : EnvRecord))
      (fun a b h => by
        cases a; cases b
        simp only [EnvRecord.mk.injEq] at h
        simp only [CharRecord.mk.injEq]
        exact ⟨by omega, by omega, h.2.2⟩) cr

end ZS

/-- Claim C9.  `Vector.Infinite` compares as farther than every finite
vector under the IEEE `<` used on distances, and it is absorptive under
`add` and `sub` with any finite vector. -/
theorem vector_infinite_contract : ∀ a b : ℤ,
    (JSV.Vector.distance ⟨.int a, .int b⟩).ltb
        (JSV.Vector.distance JSV.Vector.Infinite) = true ∧
    JSV.Vector.Infinite.add ⟨.int a, .int b⟩ = JSV.Vector.Infinite ∧
    JSV.Vector.Infinite.sub ⟨.int a, .int b⟩ = JSV.Vector.Infinite := by
  intro a b
  exact ⟨rfl, rfl, rfl⟩

namespace ZS

/-- Claim C8, counterexample: `w8` is a fully in-bounds 1×5 world, yet
`tick` moves its first zombie to x = -1 — neither the constructor, nor
`withCharacterAt`, nor `tick` enforces the bounds invariant. -/
theorem world_tick_out_of_bounds_cex :
    w8.inBounds ∧ w8.tick = .ok w8out ∧ ¬ w8out.inBounds :=
  ⟨by decide, rfl, by decide⟩

/-- Claim C8 (amended).  No bounds validation exists: `withCharacterAt`
succeeds at arbitrary coordinates — including coordinates outside
`[0, width) × [0, height)` — whenever the destination cell is not held by a
different occupant, and the out-of-bounds placement is observable in the
result. -/
theorem withCharacterAt_no_bounds_check (w : World) (c : Character) (x y : ℤ)
    (h : ¬ ∃ cr ∈ w.characters, cr.character ≠ c ∧ cr.x = x ∧ cr.y = y) :
    ∃ w', w.withCharacterAt c x y = .ok w' ∧ (⟨x, y, c⟩ : CharRecord) ∈ w'.characters := by
  refine ⟨_, withCharacterAt_ok w c x y h, ?_⟩
  simp

/-- Witness for C8: placing a character at (-1, 0) in an empty 3×3 world
succeeds. -/
theorem withCharacterAt_no_bounds_check_witness :
    ∃ w', World.withCharacterAt ⟨3, 3, []⟩ hmA (-1) 0 = .ok w' ∧
      (⟨-1, 0, hmA⟩ : CharRecord) ∈ w'.characters :=
  withCharacterAt_no_bounds_check ⟨3, 3, []⟩ hmA (-1) 0 (by decide)

end ZS

namespace ZS

/-! ### Cell-content lemmas for the `withCharacterAt` contract -/

theorem find?_filter_eq {α : Type} (p q : α → Bool) :
    ∀ l : List α, (∀ a ∈ l, q a = false → p a = false) →
      (l.filter q).find? p = l.find? p := by
  intro l
  induction l with
  | nil => intro _; rfl
  | cons a l ih =>
    intro h
    by_cases hq : q a = true
    · rw [List.filter_cons_of_pos hq]
      by_cases hp : p a = true
      · rw [List.find?_cons_of_pos _ hp, List.find?_cons_of_pos _ hp]
      · rw [List.find?_cons_of_neg _ (by simpa using hp),
          List.find?_cons_of_neg _ (by simpa using hp)]
        exact ih fun b hb => h b (List.mem_cons_of_mem _ hb)
    · have hq' : q a = false := by simpa using hq
      have hp : p a = false := h a (List.mem_cons_self _ _) hq'
      rw [List.filter_cons_of_neg (by simpa using hq),
        List.find?_cons_of_neg _ (by simp [hp])]
      exact ih fun b hb => h b (List.mem_cons_of_mem _ hb)

theorem find?_cell_eq {l : List CharRecord}
    (hl : l.Pairwise fun a b => ¬(a.x = b.x ∧ a.y = b.y)) {r : CharRecord} (hr : r ∈ l) :
    l.find? (fun cr => cr.x == r.x && cr.y == r.y) = some r := by
  induction l with
  | nil => cases hr
  | cons a l ih =>
    rcases List.mem_cons.mp hr with h | h
    · subst h
      rw [List.find?_cons_of_pos _ (by simp)]
    · have hrel : ¬(a.x = r.x ∧ a.y = r.y) := (List.pairwise_cons.mp hl).1 r h
      rw [List.find?_cons_of_neg _ (by simpa using hrel)]
      exact ih (List.pairwise_cons.mp hl).2 h

/-- Claim C3.  The full `withOccupantAt` contract: (1) it fails (with the
occupied-cell error) exactly when `(x, y)` already holds an occupant
different from `o`; (2) on a well-formed world, if `o` is already at
`(x, y)` it succeeds and every cell's contents are unchanged; (3) when no
different occupant blocks `(x, y)` it succeeds with exactly the old
placements minus `o`'s prior one, plus `o` at `(x, y)`.  The input world is
untouched in every case — the embedding is a pure function, so value
semantics holds by construction. -/
theorem withCharacterAt_contract (w : World) (o : Character) (x y : ℤ) :
    ((∃ e, w.withCharacterAt o x y = .error e) ↔
        ∃ cr ∈ w.characters, cr.character ≠ o ∧ cr.x = x ∧ cr.y = y) ∧
    (w.wf → (⟨x, y, o⟩ : CharRecord) ∈ w.characters →
        ∃ w', w.withCharacterAt o x y = .ok w' ∧
          ∀ cx cy : ℤ, w'.charAt cx cy = w.charAt cx cy) ∧
    ((¬ ∃ cr ∈ w.characters, cr.character ≠ o ∧ cr.x = x ∧ cr.y = y) →
        w.withCharacterAt o x y =
          .ok ⟨w.width, w.height,
            (w.characters.filter fun cr => cr.character != o) ++ [⟨x, y, o⟩]⟩) := by
  refine ⟨withCharacterAt_error_iff w o x y, ?_, withCharacterAt_ok w o x y⟩
  intro hwf hmem
  have hnb : ¬ ∃ cr ∈ w.characters, cr.character ≠ o ∧ cr.x = x ∧ cr.y = y := by
    rintro ⟨cr, hcr, hne, hcx, hcy⟩
    have hner : cr ≠ (⟨x, y, o⟩ : CharRecord) := fun he => hne (by rw [he])
    have hsymm : Symmetric fun a b : CharRecord => ¬(a.x = b.x ∧ a.y = b.y) :=
      fun a b hab hc => hab ⟨hc.1.symm, hc.2.symm⟩
    exact hwf.1.forall hsymm hcr hmem hner ⟨hcx, hcy⟩
  refine ⟨_, withCharacterAt_ok w o x y hnb, ?_⟩
  intro cx cy
  show World.charAt ⟨w.width, w.height,
      (w.characters.filter fun cr => cr.character != o) ++ [⟨x, y, o⟩]⟩ cx cy =
    w.charAt cx cy
  unfold World.charAt
  by_cases hxy : cx = x ∧ cy = y
  · rcases hxy with ⟨rfl, rfl⟩
    have hR : w.characters.find? (fun cr => cr.x == cx && cr.y == cy) = some ⟨cx, cy, o⟩ :=
      find?_cell_eq hwf.1 hmem
    have hFnone : (w.characters.filter fun cr => cr.character != o).find?
        (fun cr => cr.x == cx && cr.y == cy) = none := by
      rw [List.find?_eq_none]
      intro a ha hpa
      apply hnb
      have hmf := List.mem_filter.mp ha
      simp only [Bool.and_eq_true, beq_iff_eq] at hpa
      exact ⟨a, hmf.1, by simpa using hmf.2, hpa.1, hpa.2⟩
    rw [List.find?_append, hFnone, hR, List.find?_cons_of_pos _ (by simp)]
    rfl
  · have hp0 : (fun cr : CharRecord => cr.x == cx && cr.y == cy) (⟨x, y, o⟩ : CharRecord)
        = false := by
      rcases not_and_or.mp hxy with h | h
      · have hx : (x == cx) = false := by
          simp only [beq_eq_false_iff_ne]
          exact fun he => h he.symm
        simp [hx]
      · have hy : (y == cy) = false := by
          simp only [beq_eq_false_iff_ne]
          exact fun he => h he.symm
        simp [hy]
    have hsingle : ([⟨x, y, o⟩] : List CharRecord).find?
        (fun cr => cr.x == cx && cr.y == cy) = none := by
      rw [List.find?_cons_of_neg _ (by simp [hp0])]
      rfl
    have hFeq : (w.characters.filter fun cr => cr.character != o).find?
        (fun cr => cr.x == cx && cr.y == cy) =
        w.characters.find? (fun cr => cr.x == cx && cr.y == cy) := by
      apply find?_filter_eq
      intro a ha hqa
      have hao : a.character = o := by simpa using hqa
      have hae : a = (⟨x, y, o⟩ : CharRecord) := by
        by_contra hne
        have hsymm2 : Symmetric fun u v : CharRecord => u.character ≠ v.character :=
          fun u v huv hc => huv hc.symm
        exact hwf.2.forall hsymm2 ha hmem hne (by rw [hao])
      rw [hae]
      exact hp0
    rw [List.find?_append, hsingle, hFeq]
    cases w.characters.find? fun cr => cr.x == cx && cr.y == cy <;> rfl

/-- Witness for C3: relocating `hmA` onto its own cell in `w1s` succeeds and
leaves every cell's contents unchanged. -/
theorem withCharacterAt_contract_witness :
    ∃ w', w1s.withCharacterAt hmA 0 0 = .ok w' ∧
      ∀ cx cy : ℤ, w'.charAt cx cy = w1s.charAt cx cy :=
  (withCharacterAt_contract w1s hmA 0 0).2.1 (by decide) (by decide)

end ZS

namespace ZS

/-! ### Order lemmas for the `compareMoves` comparator -/

theorem moveLe_refl (target m : Vector) : Zombie.moveLe target m m := by
  unfold Zombie.moveLe
  omega

theorem moveLt_moveLe {target m b : Vector} (h : Zombie.moveLt target m b) :
    Zombie.moveLe target m b := by
  unfold Zombie.moveLt at h
  unfold Zombie.moveLe
  omega

theorem not_moveLt {target m b : Vector} (h : ¬ Zombie.moveLt target m b) :
    Zombie.moveLe target b m := by
  unfold Zombie.moveLt at h
  unfold Zombie.moveLe
  omega

theorem moveLe_trans {target a b c : Vector} (hab : Zombie.moveLe target a b)
    (hbc : Zombie.moveLe target b c) : Zombie.moveLe target a c := by
  unfold Zombie.moveLe at hab hbc ⊢
  omega

/-! ### The fold computing `sortedMoves[0]` returns the first minimum -/

theorem chooseMove_fold_spec (target : Vector) :
    ∀ (l : List Vector) (b m : Vector),
      l.foldl (Zombie.chooseStep target) (some b) = some m →
      (m = b ∨ m ∈ l) ∧ Zombie.moveLe target m b ∧ ∀ m' ∈ l, Zombie.moveLe target m m' := by
  intro l
  induction l with
  | nil =>
    intro b m h
    injection h with h
    subst h
    exact ⟨Or.inl rfl, moveLe_refl target b, fun m' hm' => absurd hm' (List.not_mem_nil m')⟩
  | cons x l ih =>
    intro b m h
    rw [List.foldl_cons] at h
    by_cases hlt : Zombie.moveLt target x b
    · have hx : Zombie.chooseStep target (some b) x = some x := by
        show (if Zombie.moveLt target x b then some x else some b) = some x
        rw [if_pos hlt]
      rw [hx] at h
      obtain ⟨hmem, hle, hall⟩ := ih x m h
      refine ⟨?_, ?_, ?_⟩
      · rcases hmem with rfl | hm
        · exact Or.inr (List.mem_cons_self _ _)
        · exact Or.inr (List.mem_cons_of_mem _ hm)
      · exact moveLe_trans hle (moveLt_moveLe hlt)
      · intro m' hm'
        rcases List.mem_cons.mp hm' with rfl | hm'
        · exact hle
        · exact hall m' hm'
    · have hx : Zombie.chooseStep target (some b) x = some b := by
        show (if Zombie.moveLt target x b then some x else some b) = some b
        rw [if_neg hlt]
      rw [hx] at h
      obtain ⟨hmem, hle, hall⟩ := ih b m h
      refine ⟨?_, hle, ?_⟩
      · rcases hmem with rfl | hm
        · exact Or.inl rfl
        · exact Or.inr (List.mem_cons_of_mem _ hm)
      · intro m' hm'
        rcases List.mem_cons.mp hm' with rfl | hm'
        · exact moveLe_trans hle (not_moveLt hlt)
        · exact hall m' hm'

theorem chooseMove_spec (target : Vector) (l : List Vector) (m : Vector)
    (h : Zombie.chooseMove target l = some m) :
    m ∈ l ∧ ∀ m' ∈ l, Zombie.moveLe target m m' := by
  cases l with
  | nil => cases h
  | cons x l =>
    have h' : l.foldl (Zombie.chooseStep target) (some x) = some m := h
    obtain ⟨hmem, hle, hall⟩ := chooseMove_fold_spec target l x m h'
    constructor
    · rcases hmem with rfl | hm
      · exact List.mem_cons_self _ _
      · exact List.mem_cons_of_mem _ hm
    · intro m' hm'
      rcases List.mem_cons.mp hm' with rfl | hm'
      · exact hle
      · exact hall m' hm'

theorem foldl_chooseStep_some (target : Vector) :
    ∀ (l : List Vector) (b : Vector),
      ∃ m, l.foldl (Zombie.chooseStep target) (some b) = some m := by
  intro l
  induction l with
  | nil => intro b; exact ⟨b, rfl⟩
  | cons x l ih =>
    intro b
    rw [List.foldl_cons]
    by_cases hlt : Zombie.moveLt target x b
    · rw [show Zombie.chooseStep target (some b) x = some x from by
        show (if Zombie.moveLt target x b then some x else some b) = some x
        rw [if_pos hlt]]
      exact ih x
    · rw [show Zombie.chooseStep target (some b) x = some b from by
        show (if Zombie.moveLt target x b then some x else some b) = some b
        rw [if_neg hlt]]
      exact ih b

theorem chooseMove_cons_some (target x : Vector) (l : List Vector) :
    ∃ m, Zombie.chooseMove target (x :: l) = some m :=
  foldl_chooseStep_some target l x

/-! ### The `bestTarget` scan returns the first target of minimal distance -/

theorem selectBest_fold_spec :
    ∀ (l : List (Vector × Character)) (b0 b : Vector × Character),
      l.foldl Zombie.selectStep (some b0) = some b →
      (b = b0 ∧ ∀ t ∈ l, b0.1.distance ≤ t.1.distance) ∨
      (∃ l₁ l₂, l = l₁ ++ b :: l₂ ∧ b.1.distance < b0.1.distance ∧
        (∀ t ∈ l₁, b.1.distance < t.1.distance) ∧ ∀ t ∈ l₂, b.1.distance ≤ t.1.distance) := by
  intro l
  induction l with
  | nil =>
    intro b0 b h
    injection h with h
    subst h
    exact Or.inl ⟨rfl, fun t ht => absurd ht (List.not_mem_nil t)⟩
  | cons x l ih =>
    intro b0 b h
    rw [List.foldl_cons] at h
    by_cases hlt : x.1.distance < b0.1.distance
    · have hx : Zombie.selectStep (some b0) x = some x := by
        show (if x.1.distance < b0.1.distance then some x else some b0) = some x
        rw [if_pos hlt]
      rw [hx] at h
      rcases ih x b h with ⟨rfl, hall⟩ | ⟨l₁, l₂, heq, hbx, h1, h2⟩
      · exact Or.inr ⟨[], l, rfl, hlt, fun t ht => absurd ht (List.not_mem_nil t), hall⟩
      · refine Or.inr ⟨x :: l₁, l₂, by rw [heq, List.cons_append], hbx.trans hlt, ?_, h2⟩
        intro t ht
        rcases List.mem_cons.mp ht with rfl | ht
        · exact hbx
        · exact h1 t ht
    · have hx : Zombie.selectStep (some b0) x = some b0 := by
        show (if x.1.distance < b0.1.distance then some x else some b0) = some b0
        rw [if_neg hlt]
      rw [hx] at h
      rcases ih b0 b h with ⟨rfl, hall⟩ | ⟨l₁, l₂, heq, hblt, h1, h2⟩
      · refine Or.inl ⟨rfl, ?_⟩
        intro t ht
        rcases List.mem_cons.mp ht with rfl | ht
        · exact not_lt.mp hlt
        · exact hall t ht
      · refine Or.inr ⟨x :: l₁, l₂, by rw [heq, List.cons_append], hblt, ?_, h2⟩
        intro t ht
        rcases List.mem_cons.mp ht with rfl | ht
        · exact lt_of_lt_of_le hblt (not_lt.mp hlt)
        · exact h1 t ht

theorem selectBest_spec (l : List (Vector × Character)) (b : Vector × Character)
    (h : Zombie.selectBest l = some b) :
    ∃ l₁ l₂, l = l₁ ++ b :: l₂ ∧ (∀ t ∈ l₁, b.1.distance < t.1.distance) ∧
      ∀ t ∈ l₂, b.1.distance ≤ t.1.distance := by
  cases l with
  | nil => cases h
  | cons x l =>
    have h' : l.foldl Zombie.selectStep (some x) = some b := h
    rcases selectBest_fold_spec l x b h' with ⟨rfl, hall⟩ | ⟨l₁, l₂, heq, hblt, h1, h2⟩
    · exact ⟨[], l, rfl, fun t ht => absurd ht (List.not_mem_nil t), hall⟩
    · refine ⟨x :: l₁, l₂, by rw [heq, List.cons_append], ?_, h2⟩
      intro t ht
      rcases List.mem_cons.mp ht with rfl | ht
      · exact hblt
      · exact h1 t ht

theorem selectBest_min {l : List (Vector × Character)} {b : Vector × Character}
    (h : Zombie.selectBest l = some b) : ∀ t ∈ l, b.1.distance ≤ t.1.distance := by
  obtain ⟨l₁, l₂, rfl, h1, h2⟩ := selectBest_spec l b h
  intro t ht
  rcases List.mem_append.mp ht with ht | ht
  · exact le_of_lt (h1 t ht)
  · rcases List.mem_cons.mp ht with rfl | ht
    · exact le_refl _
    · exact h2 t ht

theorem foldl_selectStep_some :
    ∀ (l : List (Vector × Character)) (b0 : Vector × Character),
      ∃ b, l.foldl Zombie.selectStep (some b0) = some b := by
  intro l
  induction l with
  | nil => intro b0; exact ⟨b0, rfl⟩
  | cons x l ih =>
    intro b0
    rw [List.foldl_cons]
    by_cases hlt : x.1.distance < b0.1.distance
    · rw [show Zombie.selectStep (some b0) x = some x from by
        show (if x.1.distance < b0.1.distance then some x else some b0) = some x
        rw [if_pos hlt]]
      exact ih x
    · rw [show Zombie.selectStep (some b0) x = some b0 from by
        show (if x.1.distance < b0.1.distance then some x else some b0) = some b0
        rw [if_neg hlt]]
      exact ih b0

theorem selectBest_some_of_mem {l : List (Vector × Character)}
    {t : Vector × Character} (ht : t ∈ l) : ∃ b, Zombie.selectBest l = some b := by
  cases l with
  | nil => cases ht
  | cons x l => exact foldl_selectStep_some l x

theorem zero_mem_freeMoves (env2 : List (Vector × Character)) :
    (⟨0, 0⟩ : Vector) ∈ Zombie.freeMoves env2 := by
  apply List.mem_filter.mpr
  refine ⟨by decide, ?_⟩
  have hz : ((⟨0, 0⟩ : Vector).distance == 0) = true := by decide
  simp [hz]

theorem targets_eq_nil {environment : List EnvRecord}
    (h : ∀ r ∈ environment, r.character.living = false) :
    Zombie.targets environment = [] := by
  rw [Zombie.targets, List.filter_eq_nil_iff]
  intro t ht
  obtain ⟨r, hr, rfl⟩ := List.mem_map.mp ht
  simp [h r hr]

theorem zombie_move_pursuit {environment : List EnvRecord} {b : Vector × Character}
    (hb : Zombie.selectBest (Zombie.targets environment) = some b)
    (hd : 2 < b.1.distance) :
    Zombie.move environment =
      Zombie.chooseMove b.1 (Zombie.freeMoves (Zombie.envPairs environment)) := by
  rw [Zombie.move, hb]
  show (if b.1.distance ≤ 2 then some ⟨0, 0⟩
    else Zombie.chooseMove b.1 (Zombie.freeMoves (Zombie.envPairs environment))) = _
  rw [if_neg (not_le.mpr hd)]

end ZS

namespace ZS

/-- Claim C5, counterexample: with a human at relative (3, 2) and an
obstacle on the diagonal (1, 1), the claimed candidate-list rule yields
(0, 1) (the second candidate), but the code ranks all nine moves and yields
(1, 0), which is closer under squared-Euclidean distance (8 versus 10). -/
theorem zombie_pursuit_candidate_cex :
    claimedZombieMove env5 = some ⟨0, 1⟩ ∧ Zombie.move env5 = some ⟨1, 0⟩ ∧
      ((⟨0, 1⟩ : Vector) ≠ ⟨1, 0⟩) :=
  ⟨rfl, rfl, by decide⟩

theorem moveLt_trans {target a b c : Vector} (hab : Zombie.moveLt target a b)
    (hbc : Zombie.moveLt target b c) : Zombie.moveLt target a c := by
  unfold Zombie.moveLt at hab hbc ⊢
  omega

theorem moveLt_of_moveLt_of_moveLe {target a b c : Vector}
    (hab : Zombie.moveLt target a b) (hbc : Zombie.moveLe target b c) :
    Zombie.moveLt target a c := by
  unfold Zombie.moveLt at hab ⊢
  unfold Zombie.moveLe at hbc
  omega

theorem chooseMove_fold_first (target : Vector) :
    ∀ (l : List Vector) (b0 m : Vector),
      l.foldl (Zombie.chooseStep target) (some b0) = some m →
      (m = b0 ∧ ∀ m' ∈ l, Zombie.moveLe target b0 m') ∨
      (∃ l₁ l₂, l = l₁ ++ m :: l₂ ∧ Zombie.moveLt target m b0 ∧
        (∀ m' ∈ l₁, Zombie.moveLt target m m') ∧
        ∀ m' ∈ l₂, Zombie.moveLe target m m') := by
  intro l
  induction l with
  | nil =>
    intro b0 m h
    injection h with h
    subst h
    exact Or.inl ⟨rfl, fun m' hm' => absurd hm' (List.not_mem_nil m')⟩
  | cons x l ih =>
    intro b0 m h
    rw [List.foldl_cons] at h
    by_cases hlt : Zombie.moveLt target x b0
    · have hx : Zombie.chooseStep target (some b0) x = some x := by
        show (if Zombie.moveLt target x b0 then some x else some b0) = some x
        rw [if_pos hlt]
      rw [hx] at h
      rcases ih x m h with ⟨rfl, hall⟩ | ⟨l₁, l₂, heq, hmx, h1, h2⟩
      · exact Or.inr ⟨[], l, rfl, hlt, fun m' hm' => absurd hm' (List.not_mem_nil m'), hall⟩
      · refine Or.inr ⟨x :: l₁, l₂, by rw [heq, List.cons_append],
          moveLt_trans hmx hlt, ?_, h2⟩
        intro m' hm'
        rcases List.mem_cons.mp hm' with rfl | hm'
        · exact hmx
        · exact h1 m' hm'
    · have hx : Zombie.chooseStep target (some b0) x = some b0 := by
        show (if Zombie.moveLt target x b0 then some x else some b0) = some b0
        rw [if_neg hlt]
      rw [hx] at h
      rcases ih b0 m h with ⟨rfl, hall⟩ | ⟨l₁, l₂, heq, hmb, h1, h2⟩
      · refine Or.inl ⟨rfl, ?_⟩
        intro m' hm'
        rcases List.mem_cons.mp hm' with rfl | hm'
        · exact not_moveLt hlt
        · exact hall m' hm'
      · refine Or.inr ⟨x :: l₁, l₂, by rw [heq, List.cons_append], hmb, ?_, h2⟩
        intro m' hm'
        rcases List.mem_cons.mp hm' with rfl | hm'
        · exact moveLt_of_moveLt_of_moveLe hmb (not_moveLt hlt)
        · exact h1 m' hm'

theorem chooseMove_first_min (target : Vector) (l : List Vector) (m : Vector)
    (h : Zombie.chooseMove target l = some m) :
    ∃ l₁ l₂, l = l₁ ++ m :: l₂ ∧ (∀ m' ∈ l₁, Zombie.moveLt target m m') ∧
      ∀ m' ∈ l₂, Zombie.moveLe target m m' := by
  cases l with
  | nil => cases h
  | cons x l =>
    have h' : l.foldl (Zombie.chooseStep target) (some x) = some m := h
    rcases chooseMove_fold_first target l x m h' with ⟨rfl, hall⟩ | ⟨l₁, l₂, heq, hmx, h1, h2⟩
    · exact ⟨[], l, rfl, fun m' hm' => absurd hm' (List.not_mem_nil m'), hall⟩
    · refine ⟨x :: l₁, l₂, by rw [heq, List.cons_append], ?_, h2⟩
      intro m' hm'
      rcases List.mem_cons.mp hm' with rfl | hm'
      · exact hmx
      · exact h1 m' hm'

/-- Claim C5 (amended).  Beyond biting range the zombie does not walk an
ordered three-candidate list; it filters the nine single-step moves
(keeping the zero move unconditionally, dropping any other move that
coincides with a viewpoint offset) and returns the free move that is
minimal under `compareMoves` — squared-Euclidean distance from the target's
offset minus the move, ties by the move's own distance, remaining ties by
enumeration order.  The returned move is pinned exactly: the free-move list
splits around it with every earlier move strictly beaten by the comparator
(so no exact tie precedes it) and every later move no better.  The concrete
direct-pursuit examples of the claim still hold — a lone human at (2, 0)
gives (1, 0), and at (-2, -2) gives (-1, -1) — and an exact comparator tie
is resolved by enumeration order: target (0, 3) with the direct step
blocked ties (-1, 1) and (1, 1), and the move is (-1, 1). -/
theorem zombie_pursuit_sorted :
    (∀ (environment : List EnvRecord) (b : Vector × Character),
        Zombie.selectBest (Zombie.targets environment) = some b →
        2 < b.1.distance →
        ∃ m, Zombie.move environment = some m ∧
          m ∈ Zombie.freeMoves (Zombie.envPairs environment) ∧
          (∀ m' ∈ Zombie.freeMoves (Zombie.envPairs environment),
            Zombie.moveLe b.1 m m') ∧
          ∃ l₁ l₂, Zombie.freeMoves (Zombie.envPairs environment) = l₁ ++ m :: l₂ ∧
            (∀ m' ∈ l₁, Zombie.moveLt b.1 m m') ∧
            ∀ m' ∈ l₂, Zombie.moveLe b.1 m m') ∧
    Zombie.move [⟨2, 0, hmA⟩] = some ⟨1, 0⟩ ∧
    Zombie.move [⟨-2, -2, hmA⟩] = some ⟨-1, -1⟩ ∧
    Zombie.move [⟨0, 3, hmA⟩, ⟨0, 1, zbB⟩] = some ⟨-1, 1⟩ := by
  refine ⟨?_, rfl, rfl, rfl⟩
  intro env b hb hd
  rw [zombie_move_pursuit hb hd]
  obtain ⟨m, hm⟩ : ∃ m,
      Zombie.chooseMove b.1 (Zombie.freeMoves (Zombie.envPairs env)) = some m := by
    cases hfr : Zombie.freeMoves (Zombie.envPairs env) with
    | nil => exact absurd (zero_mem_freeMoves _) (by rw [hfr]; exact List.not_mem_nil _)
    | cons x l => exact chooseMove_cons_some b.1 x l
  obtain ⟨hmem, hall⟩ := chooseMove_spec b.1 _ m hm
  obtain ⟨l₁, l₂, heq, h1, h2⟩ := chooseMove_first_min b.1 _ m hm
  exact ⟨m, hm, hmem, hall, l₁, l₂, heq, h1, h2⟩

/-- Witness for C5: the sorted-pursuit theorem applied to `env5`. -/
theorem zombie_pursuit_sorted_witness :
    ∃ m, Zombie.move env5 = some m ∧
      m ∈ Zombie.freeMoves (Zombie.envPairs env5) ∧
      (∀ m' ∈ Zombie.freeMoves (Zombie.envPairs env5),
        Zombie.moveLe (⟨3, 2⟩ : Vector) m m') ∧
      ∃ l₁ l₂, Zombie.freeMoves (Zombie.envPairs env5) = l₁ ++ m :: l₂ ∧
        (∀ m' ∈ l₁, Zombie.moveLt (⟨3, 2⟩ : Vector) m m') ∧
        ∀ m' ∈ l₂, Zombie.moveLe (⟨3, 2⟩ : Vector) m m' :=
  zombie_pursuit_sorted.1 env5 (⟨3, 2⟩, hmA) rfl (by decide)

/-- Claim C6.  With no living target the zombie stays put; otherwise the
pursued target is the living target of minimal squared-Euclidean distance
with ties broken by encounter order (the `bestTarget` scan returns the
first element of the targets list achieving the minimum: every earlier
entry is strictly farther, every later one no nearer); and the concrete
example — humans at (3, -3), (2, 2), (-3, 3) — yields the move (1, 1)
toward the human at (2, 2). -/
theorem zombie_nearest_target :
    (∀ environment : List EnvRecord,
        (∀ r ∈ environment, r.character.living = false) →
        Zombie.move environment = some ⟨0, 0⟩) ∧
    (∀ (environment : List EnvRecord) (b : Vector × Character),
        Zombie.selectBest (Zombie.targets environment) = some b →
        ∃ l₁ l₂, Zombie.targets environment = l₁ ++ b :: l₂ ∧
          (∀ t ∈ l₁, b.1.distance < t.1.distance) ∧
          ∀ t ∈ l₂, b.1.distance ≤ t.1.distance) ∧
    Zombie.move [⟨3, -3, hmA⟩, ⟨2, 2, hmB⟩, ⟨-3, 3, hmC⟩] = some ⟨1, 1⟩ := by
  refine ⟨?_, fun env b hb => selectBest_spec _ b hb, rfl⟩
  intro env h
  rw [Zombie.move, targets_eq_nil h]
  rfl

/-- Witness for C6: a viewpoint containing only a zombie has no living
target, so the move is the zero vector. -/
theorem zombie_nearest_target_witness :
    Zombie.move [⟨5, 5, zbA⟩] = some ⟨0, 0⟩ :=
  zombie_nearest_target.1 [⟨5, 5, zbA⟩] (by decide)

/-- Claim C7.  If some living target sits within Chebyshev distance 1
(|dx| < 2 and |dy| < 2) — equivalently, if the nearest living target does —
then its squared-Euclidean distance is at most 2, so the `bestDistance <= 2`
biting-range check fires and the zombie does not move. -/
theorem zombie_biting_range (environment : List EnvRecord)
    (h : ∃ r ∈ environment, r.character.living = true ∧ |r.dx| < 2 ∧ |r.dy| < 2) :
    Zombie.move environment = some ⟨0, 0⟩ := by
  obtain ⟨r, hr, hliv, hdx, hdy⟩ := h
  have hb1 := abs_lt.mp hdx
  have hb2 := abs_lt.mp hdy
  have hsq1 : r.dx ^ 2 ≤ 1 := by
    nlinarith [mul_nonneg (by omega : (0:ℤ) ≤ 1 - r.dx) (by omega : (0:ℤ) ≤ 1 + r.dx)]
  have hsq2 : r.dy ^ 2 ≤ 1 := by
    nlinarith [mul_nonneg (by omega : (0:ℤ) ≤ 1 - r.dy) (by omega : (0:ℤ) ≤ 1 + r.dy)]
  have hdist : (⟨r.dx, r.dy⟩ : Vector).distance ≤ 2 := by
    show r.dx ^ 2 + r.dy ^ 2 ≤ 2
    linarith
  have ht : ((⟨r.dx, r.dy⟩ : Vector), r.character) ∈ Zombie.targets environment :=
    List.mem_filter.mpr ⟨List.mem_map.mpr ⟨r, hr, rfl⟩, hliv⟩
  obtain ⟨b, hb⟩ := selectBest_some_of_mem ht
  have hble : b.1.distance ≤ 2 := le_trans (selectBest_min hb _ ht) hdist
  rw [Zombie.move, hb]
  show (if b.1.distance ≤ 2 then some ⟨0, 0⟩
    else Zombie.chooseMove b.1 (Zombie.freeMoves (Zombie.envPairs environment))) = some ⟨0, 0⟩
  rw [if_pos hble]

/-- Witness for C7: a human at relative (1, 1) is in biting range. -/
theorem zombie_biting_range_witness :
    Zombie.move [⟨1, 1, hmA⟩] = some ⟨0, 0⟩ :=
  zombie_biting_range [⟨1, 1, hmA⟩] (by decide)

/-- Claim C10.  `Zombie.move` is total: the zero move always survives the
obstacle filter (any distance-0 move is kept regardless of obstacles), so
the free-move list is never empty and the head of the sorted list is always
a defined vector — the function never returns `undefined`. -/
theorem zombie_move_total (environment : List EnvRecord)
    (_h : ∃ r ∈ environment, r.character.living = true ∧
        2 < (⟨r.dx, r.dy⟩ : Vector).distance) :
    (⟨0, 0⟩ : Vector) ∈ Zombie.freeMoves (Zombie.envPairs environment) ∧
    ∃ m, Zombie.move environment = some m := by
  refine ⟨zero_mem_freeMoves _, ?_⟩
  cases hb : Zombie.selectBest (Zombie.targets environment) with
  | none => exact ⟨⟨0, 0⟩, by rw [Zombie.move, hb]⟩
  | some b =>
    by_cases hble : b.1.distance ≤ 2
    · refine ⟨⟨0, 0⟩, ?_⟩
      rw [Zombie.move, hb]
      show (if b.1.distance ≤ 2 then some ⟨0, 0⟩
        else Zombie.chooseMove b.1 (Zombie.freeMoves (Zombie.envPairs environment)))
        = some ⟨0, 0⟩
      rw [if_pos hble]
    · rw [zombie_move_pursuit hb (not_le.mp hble)]
      cases hfr : Zombie.freeMoves (Zombie.envPairs environment) with
      | nil => exact absurd (zero_mem_freeMoves _) (by rw [hfr]; exact List.not_mem_nil _)
      | cons x l => exact chooseMove_cons_some b.1 x l

/-- Witness for C10: a lone human at (2, 0) lies beyond biting range, and
the move is defined. -/
theorem zombie_move_total_witness :
    (⟨0, 0⟩ : Vector) ∈ Zombie.freeMoves (Zombie.envPairs [⟨2, 0, hmA⟩]) ∧
    ∃ m, Zombie.move [⟨2, 0, hmA⟩] = some m :=
  zombie_move_total [⟨2, 0, hmA⟩] (by decide)

end ZS
